import Mathlib

/-!
Shallow embedding, over the real numbers, of the Theano conditional
restricted Boltzmann machine implementation in crbm.py, together with
theorems checking the stated properties of its specification.

Modelling conventions:
* float tensors become functions into the reals; a batch of row vectors of
  width n is a function of type Fin nb → Fin n → ℝ;
* the five parameters W, A, B, hbias, vbias form the structure CRBM;
* the symbolic inputs self.input and self.input_history are passed to the
  embedded operations as explicit arguments;
* the stochastic binomial draw of theano_rng.binomial(n=1, p) is driven by an
  explicit stream of uniform draws, one real number per tensor entry;
* theano.scan over gibbs_hvh becomes a recursively defined list of the
  per-step outputs; the subtensor nv_samples[-1] becomes List.getLast?,
  which has no value on an empty chain, so get_cost_updates returns an
  Option and yields none when k = 0;
* the exact gradient computed by T.grad (with consider_constant blocking the
  chain end) is rendered by closed-form gradient definitions which are
  proved, in the claim theorems, to be the calculus derivatives of the
  embedded cost function.
-/

namespace Crbm

open Finset

/-- The five CRBM parameters, as initialised and stored by CRBM.dunder-init:
W : n_visible x n_hidden, A : (n_visible * delay) x n_visible,
B : (n_visible * delay) x n_hidden, hbias : n_hidden, vbias : n_visible.
Here nd abbreviates n_visible * delay, the width of a flattened history row. -/
structure CRBM (nv nh nd : ℕ) where
  W : Fin nv → Fin nh → ℝ
  A : Fin nd → Fin nv → ℝ
  B : Fin nd → Fin nh → ℝ
  hbias : Fin nh → ℝ
  vbias : Fin nv → ℝ

variable {nv nh nd nb : ℕ}

/-- T.nnet.sigmoid. -/
noncomputable def sigmoid (x : ℝ) : ℝ := 1 / (1 + Real.exp (-x))

/-- One row of the matrix product T.dot(v, M). -/
noncomputable def tdot {n p : ℕ} (v : Fin n → ℝ) (M : Fin n → Fin p → ℝ) : Fin p → ℝ :=
  fun j => ∑ i, v i * M i j

/-- One row of wx_b from CRBM.free_energy, which is also the row of
pre_sigmoid_activation from CRBM.propup:
T.dot(v, W) + T.dot(v_history, B) + hbias. -/
noncomputable def wx (m : CRBM nv nh nd) (v : Fin nv → ℝ) (vh : Fin nd → ℝ) (j : Fin nh) : ℝ :=
  tdot v m.W j + tdot vh m.B j + m.hbias j

/-- One row of ax_b from CRBM.free_energy:
T.dot(v_history, A) + vbias. -/
noncomputable def ax (m : CRBM nv nh nd) (vh : Fin nd → ℝ) (i : Fin nv) : ℝ :=
  tdot vh m.A i + m.vbias i

/-- The body of CRBM.free_energy for one batch row:
visible_term - hidden_term with
visible_term = T.sum(0.5 * T.sqr(v_sample - ax_b), axis=1) and
hidden_term = T.sum(T.log(1 + T.exp(wx_b)), axis=1). -/
noncomputable def fe_row (m : CRBM nv nh nd) (v : Fin nv → ℝ) (vh : Fin nd → ℝ) : ℝ :=
  (∑ i, 0.5 * (v i - ax m vh i) ^ 2) - ∑ j, Real.log (1 + Real.exp (wx m v vh j))

/-- CRBM.free_energy: the free energy of a batch of samples conditional on
the history, one real number per batch row. -/
noncomputable def free_energy (m : CRBM nv nh nd) (v_sample : Fin nb → Fin nv → ℝ)
    (v_history : Fin nb → Fin nd → ℝ) : Fin nb → ℝ :=
  fun b => fe_row m (v_sample b) (v_history b)

/-- CRBM.propup: the pre-sigmoid activation together with the sigmoid
activation of the hidden layer. -/
noncomputable def propup (m : CRBM nv nh nd) (vis : Fin nb → Fin nv → ℝ)
    (v_history : Fin nb → Fin nd → ℝ) :
    (Fin nb → Fin nh → ℝ) × (Fin nb → Fin nh → ℝ) :=
  (fun b j => wx m (vis b) (v_history b) j,
   fun b j => sigmoid (wx m (vis b) (v_history b) j))

/-- Models theano_rng.binomial(n=1, p=p) for one tensor entry, driven by a
uniform draw u from the random stream: the sample is 1 when u < p, else 0. -/
noncomputable def binomial1 (u p : ℝ) : ℝ := if u < p then 1 else 0

/-- CRBM.sample_h_given_v: propagate up, then draw an elementwise binomial
sample of the hidden units; returns
(pre_sigmoid_h1, h1_mean, h1_sample). -/
noncomputable def sample_h_given_v (m : CRBM nv nh nd) (v0_sample : Fin nb → Fin nv → ℝ)
    (v_history : Fin nb → Fin nd → ℝ) (rand : Fin nb → Fin nh → ℝ) :
    (Fin nb → Fin nh → ℝ) × (Fin nb → Fin nh → ℝ) × (Fin nb → Fin nh → ℝ) :=
  let pu := propup m v0_sample v_history
  (pu.1, pu.2, fun b j => binomial1 (rand b j) (pu.2 b j))

/-- CRBM.propdown: mean activation of the visible layer,
T.dot(hid, W.T) + T.dot(v_history, A) + vbias. -/
noncomputable def propdown (m : CRBM nv nh nd) (hid : Fin nb → Fin nh → ℝ)
    (v_history : Fin nb → Fin nd → ℝ) : Fin nb → Fin nv → ℝ :=
  fun b i => (∑ j, hid b j * m.W i j) + tdot (v_history b) m.A i + m.vbias i

/-- CRBM.sample_v_given_h: the visible mean activation, with the sample set
to the mean itself (v1_sample = v1_mean, the mean-field choice; the binomial
draw of the visible layer is commented out in the source). -/
noncomputable def sample_v_given_h (m : CRBM nv nh nd) (h0_sample : Fin nb → Fin nh → ℝ)
    (v_history : Fin nb → Fin nd → ℝ) :
    (Fin nb → Fin nv → ℝ) × (Fin nb → Fin nv → ℝ) :=
  let v1_mean := propdown m h0_sample v_history
  (v1_mean, v1_mean)

/-- The five outputs of one hidden-to-visible-to-hidden Gibbs step, in the
order returned by CRBM.gibbs_hvh. -/
structure GibbsHVH (nv nh nb : ℕ) where
  v1_mean : Fin nb → Fin nv → ℝ
  v1_sample : Fin nb → Fin nv → ℝ
  pre_sigmoid_h1 : Fin nb → Fin nh → ℝ
  h1_mean : Fin nb → Fin nh → ℝ
  h1_sample : Fin nb → Fin nh → ℝ

/-- CRBM.gibbs_hvh: one Gibbs step starting from a hidden sample. -/
noncomputable def gibbs_hvh (m : CRBM nv nh nd) (h0_sample : Fin nb → Fin nh → ℝ)
    (v_history : Fin nb → Fin nd → ℝ) (rand : Fin nb → Fin nh → ℝ) : GibbsHVH nv nh nb :=
  let sv := sample_v_given_h m h0_sample v_history
  let sh := sample_h_given_v m sv.2 v_history rand
  ⟨sv.1, sv.2, sh.1, sh.2.1, sh.2.2⟩

/-- CRBM.gibbs_vhv: one Gibbs step starting from a visible sample; returns
(pre_sigmoid_h1, h1_mean, h1_sample, v1_mean, v1_sample). -/
noncomputable def gibbs_vhv (m : CRBM nv nh nd) (v0_sample : Fin nb → Fin nv → ℝ)
    (v_history : Fin nb → Fin nd → ℝ) (rand : Fin nb → Fin nh → ℝ) :
    (Fin nb → Fin nh → ℝ) × (Fin nb → Fin nh → ℝ) × (Fin nb → Fin nh → ℝ)
      × (Fin nb → Fin nv → ℝ) × (Fin nb → Fin nv → ℝ) :=
  let sh := sample_h_given_v m v0_sample v_history rand
  let sv := sample_v_given_h m sh.2.2 v_history
  (sh.1, sh.2.1, sh.2.2, sv.1, sv.2)

/-- The theano.scan of gibbs_hvh inside CRBM.get_cost_updates: iterate the
step k times, feeding the hidden sample of each step to the next and keeping
the history fixed; the t-th element of rands drives the t-th step. The
result is the transposed view of the five scan output tensors: a list of
length k whose t-th element holds the outputs of step t. -/
noncomputable def scan_gibbs_hvh (m : CRBM nv nh nd) (v_history : Fin nb → Fin nd → ℝ)
    (rands : ℕ → Fin nb → Fin nh → ℝ) (chain_start : Fin nb → Fin nh → ℝ) :
    ℕ → List (GibbsHVH nv nh nb)
  | 0 => []
  | k + 1 =>
      let o := gibbs_hvh m chain_start v_history (rands 0)
      o :: scan_gibbs_hvh m v_history (fun t => rands (t + 1)) o.h1_sample k

/-- T.mean of a length-nb vector. -/
noncomputable def tmean (f : Fin nb → ℝ) : ℝ := (∑ b, f b) / (nb : ℝ)

/-- The cost of CRBM.get_cost_updates used only for the gradient:
T.mean(free_energy(input, input_history)) -
T.mean(free_energy(chain_end, input_history)), as a function of the
parameters with the chain end ce held as a constant tensor (this is the
function T.grad differentiates under consider_constant=[chain_end]). -/
noncomputable def cd_cost (m : CRBM nv nh nd) (x : Fin nb → Fin nv → ℝ)
    (xh : Fin nb → Fin nd → ℝ) (ce : Fin nb → Fin nv → ℝ) : ℝ :=
  tmean (free_energy m x xh) - tmean (free_energy m ce xh)

/-- Row contribution of the partial derivative of fe_row with respect to the
entry W i j. -/
noncomputable def gW_row (m : CRBM nv nh nd) (v : Fin nv → ℝ) (vh : Fin nd → ℝ)
    (i : Fin nv) (j : Fin nh) : ℝ :=
  -(sigmoid (wx m v vh j) * v i)

/-- Row contribution of the partial derivative of fe_row with respect to the
entry A l i. -/
noncomputable def gA_row (m : CRBM nv nh nd) (v : Fin nv → ℝ) (vh : Fin nd → ℝ)
    (l : Fin nd) (i : Fin nv) : ℝ :=
  -((v i - ax m vh i) * vh l)

/-- Row contribution of the partial derivative of fe_row with respect to the
entry B l j. -/
noncomputable def gB_row (m : CRBM nv nh nd) (v : Fin nv → ℝ) (vh : Fin nd → ℝ)
    (l : Fin nd) (j : Fin nh) : ℝ :=
  -(sigmoid (wx m v vh j) * vh l)

/-- Row contribution of the partial derivative of fe_row with respect to the
entry hbias j. -/
noncomputable def gH_row (m : CRBM nv nh nd) (v : Fin nv → ℝ) (vh : Fin nd → ℝ)
    (j : Fin nh) : ℝ :=
  -(sigmoid (wx m v vh j))

/-- Row contribution of the partial derivative of fe_row with respect to the
entry vbias i. -/
noncomputable def gV_row (m : CRBM nv nh nd) (v : Fin nv → ℝ) (vh : Fin nd → ℝ)
    (i : Fin nv) : ℝ :=
  -(v i - ax m vh i)

/-- The gradient T.grad(cost, W, consider_constant=[chain_end]) in closed
form. -/
noncomputable def gradW (m : CRBM nv nh nd) (x : Fin nb → Fin nv → ℝ)
    (xh : Fin nb → Fin nd → ℝ) (ce : Fin nb → Fin nv → ℝ) (i : Fin nv) (j : Fin nh) : ℝ :=
  tmean (fun b => gW_row m (x b) (xh b) i j) - tmean (fun b => gW_row m (ce b) (xh b) i j)

/-- The gradient T.grad(cost, A, consider_constant=[chain_end]) in closed
form. -/
noncomputable def gradA (m : CRBM nv nh nd) (x : Fin nb → Fin nv → ℝ)
    (xh : Fin nb → Fin nd → ℝ) (ce : Fin nb → Fin nv → ℝ) (l : Fin nd) (i : Fin nv) : ℝ :=
  tmean (fun b => gA_row m (x b) (xh b) l i) - tmean (fun b => gA_row m (ce b) (xh b) l i)

/-- The gradient T.grad(cost, B, consider_constant=[chain_end]) in closed
form. -/
noncomputable def gradB (m : CRBM nv nh nd) (x : Fin nb → Fin nv → ℝ)
    (xh : Fin nb → Fin nd → ℝ) (ce : Fin nb → Fin nv → ℝ) (l : Fin nd) (j : Fin nh) : ℝ :=
  tmean (fun b => gB_row m (x b) (xh b) l j) - tmean (fun b => gB_row m (ce b) (xh b) l j)

/-- The gradient T.grad(cost, hbias, consider_constant=[chain_end]) in
closed form. -/
noncomputable def gradH (m : CRBM nv nh nd) (x : Fin nb → Fin nv → ℝ)
    (xh : Fin nb → Fin nd → ℝ) (ce : Fin nb → Fin nv → ℝ) (j : Fin nh) : ℝ :=
  tmean (fun b => gH_row m (x b) (xh b) j) - tmean (fun b => gH_row m (ce b) (xh b) j)

/-- The gradient T.grad(cost, vbias, consider_constant=[chain_end]) in
closed form. -/
noncomputable def gradV (m : CRBM nv nh nd) (x : Fin nb → Fin nv → ℝ)
    (xh : Fin nb → Fin nd → ℝ) (ce : Fin nb → Fin nv → ℝ) (i : Fin nv) : ℝ :=
  tmean (fun b => gV_row m (x b) (xh b) i) - tmean (fun b => gV_row m (ce b) (xh b) i)

/-- The updates dictionary built by the loop of CRBM.get_cost_updates:
every parameter is mapped to param - gparam * lr, except A which is mapped
to A - gparam * 0.01 * lr. -/
noncomputable def cd_updates (m : CRBM nv nh nd) (x : Fin nb → Fin nv → ℝ)
    (xh : Fin nb → Fin nd → ℝ) (ce : Fin nb → Fin nv → ℝ) (lr : ℝ) : CRBM nv nh nd where
  W := fun i j => m.W i j - gradW m x xh ce i j * lr
  A := fun l i => m.A l i - gradA m x xh ce l i * 0.01 * lr
  B := fun l j => m.B l j - gradB m x xh ce l j * lr
  hbias := fun j => m.hbias j - gradH m x xh ce j * lr
  vbias := fun i => m.vbias i - gradV m x xh ce i * lr

/-- CRBM.get_reconstruction_cost:
T.mean(T.sum(T.sqr(input - pre_sigmoid_nv), axis=1)). -/
noncomputable def get_reconstruction_cost (x : Fin nb → Fin nv → ℝ)
    (pre_sigmoid_nv : Fin nb → Fin nv → ℝ) : ℝ :=
  tmean (fun b => ∑ i, (x b i - pre_sigmoid_nv b i) ^ 2)

/-- CRBM.get_cost_updates: positive phase by sample_h_given_v on the input,
negative phase by the scan of gibbs_hvh started from ph_sample, chain end
nv_samples[-1], updates from the closed-form gradients, monitoring cost from
get_reconstruction_cost on nv_means[-1]. The subtensor [-1] of the scan
outputs has no value when k = 0, hence the Option. -/
noncomputable def get_cost_updates (m : CRBM nv nh nd) (lr : ℝ) (k : ℕ)
    (input : Fin nb → Fin nv → ℝ) (input_history : Fin nb → Fin nd → ℝ)
    (rand0 : Fin nb → Fin nh → ℝ) (rands : ℕ → Fin nb → Fin nh → ℝ) :
    Option (ℝ × CRBM nv nh nd) :=
  let ph := sample_h_given_v m input input_history rand0
  let chain_start := ph.2.2
  let outs := scan_gibbs_hvh m input_history rands chain_start k
  match (outs.map GibbsHVH.v1_sample).getLast?, (outs.map GibbsHVH.v1_mean).getLast? with
  | some chain_end, some nv_means_last =>
      some (get_reconstruction_cost input nv_means_last,
            cd_updates m input input_history chain_end lr)
  | _, _ => none

/-- The hidden state after t steps of the CD Markov chain: the start state
for t = 0, and the hidden sample of step t - 1 afterwards. This is the
k-fold-iteration description of the negative phase; the claim theorems
relate it to the scan. -/
noncomputable def chain_hidden (m : CRBM nv nh nd) (v_history : Fin nb → Fin nd → ℝ)
    (rands : ℕ → Fin nb → Fin nh → ℝ) (h0 : Fin nb → Fin nh → ℝ) :
    ℕ → (Fin nb → Fin nh → ℝ)
  | 0 => h0
  | t + 1 => (gibbs_hvh m (chain_hidden m v_history rands h0 t) v_history (rands t)).h1_sample

/-- The outputs of step t (0-indexed) of the CD Markov chain, in the
k-fold-iteration description. -/
noncomputable def chain_step (m : CRBM nv nh nd) (v_history : Fin nb → Fin nd → ℝ)
    (rands : ℕ → Fin nb → Fin nh → ℝ) (h0 : Fin nb → Fin nh → ℝ) (t : ℕ) :
    GibbsHVH nv nh nb :=
  gibbs_hvh m (chain_hidden m v_history rands h0 t) v_history (rands t)

/-- The model with the single entry W i0 j0 replaced by t; used to state the
entrywise partial derivatives of the cost. -/
noncomputable def updW (m : CRBM nv nh nd) (i0 : Fin nv) (j0 : Fin nh) (t : ℝ) :
    CRBM nv nh nd :=
  { m with W := fun i j => if i = i0 ∧ j = j0 then t else m.W i j }

/-- The model with the single entry A l0 i0 replaced by t. -/
noncomputable def updA (m : CRBM nv nh nd) (l0 : Fin nd) (i0 : Fin nv) (t : ℝ) :
    CRBM nv nh nd :=
  { m with A := fun l i => if l = l0 ∧ i = i0 then t else m.A l i }

/-- The model with the single entry B l0 j0 replaced by t. -/
noncomputable def updB (m : CRBM nv nh nd) (l0 : Fin nd) (j0 : Fin nh) (t : ℝ) :
    CRBM nv nh nd :=
  { m with B := fun l j => if l = l0 ∧ j = j0 then t else m.B l j }

/-- The model with the single entry hbias j0 replaced by t. -/
noncomputable def updH (m : CRBM nv nh nd) (j0 : Fin nh) (t : ℝ) : CRBM nv nh nd :=
  { m with hbias := fun j => if j = j0 then t else m.hbias j }

/-- The model with the single entry vbias i0 replaced by t. -/
noncomputable def updV (m : CRBM nv nh nd) (i0 : Fin nv) (t : ℝ) : CRBM nv nh nd :=
  { m with vbias := fun i => if i = i0 then t else m.vbias i }

/-- A call of free_energy seen as a state transformer on the model: the
result together with the parameter state after the call (the method never
assigns to the parameters, so the post state is the receiver itself). -/
noncomputable def free_energy_call (m : CRBM nv nh nd) (v : Fin nb → Fin nv → ℝ)
    (vh : Fin nb → Fin nd → ℝ) : (Fin nb → ℝ) × CRBM nv nh nd :=
  (free_energy m v vh, m)

/-- A call of propup seen as a state transformer on the model. -/
noncomputable def propup_call (m : CRBM nv nh nd) (v : Fin nb → Fin nv → ℝ)
    (vh : Fin nb → Fin nd → ℝ) :
    ((Fin nb → Fin nh → ℝ) × (Fin nb → Fin nh → ℝ)) × CRBM nv nh nd :=
  (propup m v vh, m)

/-- A call of propdown seen as a state transformer on the model. -/
noncomputable def propdown_call (m : CRBM nv nh nd) (hid : Fin nb → Fin nh → ℝ)
    (vh : Fin nb → Fin nd → ℝ) : (Fin nb → Fin nv → ℝ) × CRBM nv nh nd :=
  (propdown m hid vh, m)

/-- A call of sample_h_given_v seen as a state transformer on the model. -/
noncomputable def sample_h_given_v_call (m : CRBM nv nh nd) (v : Fin nb → Fin nv → ℝ)
    (vh : Fin nb → Fin nd → ℝ) (rand : Fin nb → Fin nh → ℝ) :
    ((Fin nb → Fin nh → ℝ) × (Fin nb → Fin nh → ℝ) × (Fin nb → Fin nh → ℝ))
      × CRBM nv nh nd :=
  (sample_h_given_v m v vh rand, m)

/-- A call of sample_v_given_h seen as a state transformer on the model. -/
noncomputable def sample_v_given_h_call (m : CRBM nv nh nd) (h0 : Fin nb → Fin nh → ℝ)
    (vh : Fin nb → Fin nd → ℝ) :
    ((Fin nb → Fin nv → ℝ) × (Fin nb → Fin nv → ℝ)) × CRBM nv nh nd :=
  (sample_v_given_h m h0 vh, m)

/-- A call of gibbs_hvh seen as a state transformer on the model. -/
noncomputable def gibbs_hvh_call (m : CRBM nv nh nd) (h0 : Fin nb → Fin nh → ℝ)
    (vh : Fin nb → Fin nd → ℝ) (rand : Fin nb → Fin nh → ℝ) :
    GibbsHVH nv nh nb × CRBM nv nh nd :=
  (gibbs_hvh m h0 vh rand, m)

/-- A call of gibbs_vhv seen as a state transformer on the model. -/
noncomputable def gibbs_vhv_call (m : CRBM nv nh nd) (v0 : Fin nb → Fin nv → ℝ)
    (vh : Fin nb → Fin nd → ℝ) (rand : Fin nb → Fin nh → ℝ) :
    ((Fin nb → Fin nh → ℝ) × (Fin nb → Fin nh → ℝ) × (Fin nb → Fin nh → ℝ)
      × (Fin nb → Fin nv → ℝ) × (Fin nb → Fin nv → ℝ)) × CRBM nv nh nd :=
  (gibbs_vhv m v0 vh rand, m)

/-- A call of get_cost_updates seen as a state transformer on the model: it
returns the monitoring cost and the updates dictionary, and leaves the
parameter state to the external caller. -/
noncomputable def get_cost_updates_call (m : CRBM nv nh nd) (lr : ℝ) (k : ℕ)
    (input : Fin nb → Fin nv → ℝ) (input_history : Fin nb → Fin nd → ℝ)
    (rand0 : Fin nb → Fin nh → ℝ) (rands : ℕ → Fin nb → Fin nh → ℝ) :
    Option (ℝ × CRBM nv nh nd) × CRBM nv nh nd :=
  (get_cost_updates m lr k input input_history rand0 rands, m)

/-- The value of the chain-end subtensor nv_samples[-1] inside
get_cost_updates for a CD chain of k + 1 steps, in the k-fold-iteration
description: the visible sample of the final step of the chain started at
ph_sample. -/
noncomputable def chain_end_sample (m : CRBM nv nh nd) (x : Fin nb → Fin nv → ℝ)
    (xh : Fin nb → Fin nd → ℝ) (rand0 : Fin nb → Fin nh → ℝ)
    (rands : ℕ → Fin nb → Fin nh → ℝ) (k : ℕ) : Fin nb → Fin nv → ℝ :=
  (chain_step m xh rands ((sample_h_given_v m x xh rand0).2.2) k).v1_sample

/-- The shifted random stream agrees with the original one step later, so
the chain state of the tail of a scan is the chain state of the whole scan
one step later. -/
theorem chain_hidden_shift (m : CRBM nv nh nd) (vh : Fin nb → Fin nd → ℝ)
    (rands : ℕ → Fin nb → Fin nh → ℝ) (h0 : Fin nb → Fin nh → ℝ) (t : ℕ) :
    chain_hidden m vh (fun s => rands (s + 1))
        ((gibbs_hvh m h0 vh (rands 0)).h1_sample) t
      = chain_hidden m vh rands h0 (t + 1) := by
  induction t with
  | zero => rfl
  | succ t ih => simp only [chain_hidden, ih]

/-- Step t of the shifted chain is step t + 1 of the original chain. -/
theorem chain_step_shift (m : CRBM nv nh nd) (vh : Fin nb → Fin nd → ℝ)
    (rands : ℕ → Fin nb → Fin nh → ℝ) (h0 : Fin nb → Fin nh → ℝ) (t : ℕ) :
    chain_step m vh (fun s => rands (s + 1))
        ((gibbs_hvh m h0 vh (rands 0)).h1_sample) t
      = chain_step m vh rands h0 (t + 1) := by
  simp only [chain_step, chain_hidden_shift]

/-- Unfolding of the scan for a positive number of steps. -/
theorem scan_gibbs_succ (m : CRBM nv nh nd) (vh : Fin nb → Fin nd → ℝ)
    (rands : ℕ → Fin nb → Fin nh → ℝ) (h0 : Fin nb → Fin nh → ℝ) (k : ℕ) :
    scan_gibbs_hvh m vh rands h0 (k + 1)
      = gibbs_hvh m h0 vh (rands 0)
          :: scan_gibbs_hvh m vh (fun s => rands (s + 1))
              ((gibbs_hvh m h0 vh (rands 0)).h1_sample) k :=
  rfl

/-- The scan output has exactly one entry per Gibbs step. -/
theorem scan_gibbs_length (m : CRBM nv nh nd) (vh : Fin nb → Fin nd → ℝ)
    (rands : ℕ → Fin nb → Fin nh → ℝ) (h0 : Fin nb → Fin nh → ℝ) (k : ℕ) :
    (scan_gibbs_hvh m vh rands h0 k).length = k := by
  induction k generalizing rands h0 with
  | zero => rfl
  | succ k ih => simp only [scan_gibbs_hvh, List.length_cons, ih]

/-- Entry t of the scan output is step t of the iterated chain. -/
theorem scan_gibbs_getElem (m : CRBM nv nh nd) (vh : Fin nb → Fin nd → ℝ)
    (rands : ℕ → Fin nb → Fin nh → ℝ) (h0 : Fin nb → Fin nh → ℝ) (k t : ℕ)
    (ht : t < k) :
    (scan_gibbs_hvh m vh rands h0 k)[t]? = some (chain_step m vh rands h0 t) := by
  induction k generalizing rands h0 t with
  | zero => omega
  | succ k ih =>
    cases t with
    | zero =>
      rw [scan_gibbs_succ, List.getElem?_cons_zero]
      rfl
    | succ t =>
      have ht2 : t < k := by omega
      calc (scan_gibbs_hvh m vh rands h0 (k + 1))[t + 1]?
          = (scan_gibbs_hvh m vh (fun s => rands (s + 1))
              ((gibbs_hvh m h0 vh (rands 0)).h1_sample) k)[t]? := by
            rw [scan_gibbs_succ, List.getElem?_cons_succ]
        _ = some (chain_step m vh (fun s => rands (s + 1))
              ((gibbs_hvh m h0 vh (rands 0)).h1_sample) t) := ih _ _ _ ht2
        _ = some (chain_step m vh rands h0 (t + 1)) := by rw [chain_step_shift]

/-- The last entry of any component of the scan output of a chain of k + 1
steps is that component of step k. -/
theorem scan_gibbs_map_getLast {α : Type} (m : CRBM nv nh nd)
    (vh : Fin nb → Fin nd → ℝ) (rands : ℕ → Fin nb → Fin nh → ℝ)
    (h0 : Fin nb → Fin nh → ℝ) (k : ℕ) (f : GibbsHVH nv nh nb → α) :
    ((scan_gibbs_hvh m vh rands h0 (k + 1)).map f).getLast?
      = some (f (chain_step m vh rands h0 k)) := by
  rw [List.getLast?_eq_getElem?, List.length_map, scan_gibbs_length,
    List.getElem?_map, Nat.add_sub_cancel,
    scan_gibbs_getElem m vh rands h0 (k + 1) k (by omega)]
  rfl

/-- The value of get_cost_updates on a chain of k + 1 steps. -/
theorem get_cost_updates_succ (m : CRBM nv nh nd) (lr : ℝ) (k : ℕ)
    (x : Fin nb → Fin nv → ℝ) (xh : Fin nb → Fin nd → ℝ)
    (rand0 : Fin nb → Fin nh → ℝ) (rands : ℕ → Fin nb → Fin nh → ℝ) :
    get_cost_updates m lr (k + 1) x xh rand0 rands
      = some (get_reconstruction_cost x
            ((chain_step m xh rands ((sample_h_given_v m x xh rand0).2.2) k).v1_mean),
          cd_updates m x xh (chain_end_sample m x xh rand0 rands k) lr) := by
  simp only [get_cost_updates]
  rw [scan_gibbs_map_getLast, scan_gibbs_map_getLast]
  rfl

/-- Claim C2: for every k greater or equal to 1 (written k + 1 below), the
negative phase of get_cost_updates is the (k + 1)-fold iteration of the
Gibbs transition gibbs_hvh started from the hidden sample ph_sample drawn
from the true input: entry t of the scan is gibbs_hvh applied to the
iterated hidden state after t steps, conditioned on the same fixed history
at every step, and the chain end used for the cost is the final visible
sample. -/
theorem negative_phase_is_iterated_gibbs (m : CRBM nv nh nd)
    (x : Fin nb → Fin nv → ℝ) (xh : Fin nb → Fin nd → ℝ)
    (rand0 : Fin nb → Fin nh → ℝ) (rands : ℕ → Fin nb → Fin nh → ℝ) (k : ℕ) :
    (∀ t : Fin (k + 1),
        (scan_gibbs_hvh m xh rands ((sample_h_given_v m x xh rand0).2.2) (k + 1))[t.1]?
          = some (gibbs_hvh m
              (chain_hidden m xh rands ((sample_h_given_v m x xh rand0).2.2) t.1)
              xh (rands t.1)))
      ∧ ((scan_gibbs_hvh m xh rands
            ((sample_h_given_v m x xh rand0).2.2) (k + 1)).map
              GibbsHVH.v1_sample).getLast?
          = some (chain_end_sample m x xh rand0 rands k) :=
  ⟨fun t => scan_gibbs_getElem m xh rands _ (k + 1) t.1 t.isLt,
   scan_gibbs_map_getLast m xh rands _ k GibbsHVH.v1_sample⟩

/-- Claim C7: the monitoring cost returned by get_cost_updates is the
squared reconstruction error between the true input x and the visible
mean-field output of the final Gibbs iteration (nv_means[-1]), summed over
the visible dimensions and averaged over the batch; the free-energy
difference used for the gradients is not what is returned. -/
theorem monitoring_cost_is_reconstruction_error (m : CRBM nv nh nd)
    (x : Fin nb → Fin nv → ℝ) (xh : Fin nb → Fin nd → ℝ)
    (rand0 : Fin nb → Fin nh → ℝ) (rands : ℕ → Fin nb → Fin nh → ℝ)
    (lr : ℝ) (k : ℕ) :
    (get_cost_updates m lr (k + 1) x xh rand0 rands).map Prod.fst
      = some (tmean (fun b => ∑ i,
          (x b i - (chain_step m xh rands
            ((sample_h_given_v m x xh rand0).2.2) k).v1_mean b i) ^ 2)) := by
  rw [get_cost_updates_succ]
  rfl

/-- Claim C3: for every batch of visible vectors v and history windows vh,
free_energy returns, per batch row, visible_term - hidden_term where
wx_b = v.W + vh.B + hbias, ax_b = vh.A + vbias,
visible_term = 0.5 * sum over visible dims of (v - ax_b) squared, and
hidden_term = sum over hidden dims of log (1 + exp wx_b). -/
theorem free_energy_formula (m : CRBM nv nh nd) (v : Fin nb → Fin nv → ℝ)
    (vh : Fin nb → Fin nd → ℝ) (b : Fin nb) :
    free_energy m v vh b =
      (∑ i, 0.5 * (v b i - ((∑ l, vh b l * m.A l i) + m.vbias i)) ^ 2)
        - ∑ j, Real.log (1 + Real.exp
            ((∑ i, v b i * m.W i j) + (∑ l, vh b l * m.B l j) + m.hbias j)) :=
  rfl

/-- Claim C4: sample_v_given_h returns the pair (mean, mean) where the mean
is h.Wt + vh.A + vbias, with no sigmoid and no added noise; the visible
sample equals the mean-field mean, and the function is a pure function of
its arguments (it consumes no randomness), so two calls with identical
inputs yield identical outputs. -/
theorem sample_v_given_h_mean_field (m : CRBM nv nh nd) (h0 : Fin nb → Fin nh → ℝ)
    (vh : Fin nb → Fin nd → ℝ) :
    (sample_v_given_h m h0 vh).2 = (sample_v_given_h m h0 vh).1
      ∧ ∀ b i, (sample_v_given_h m h0 vh).1 b i
          = (∑ j, h0 b j * m.W i j) + (∑ l, vh b l * m.A l i) + m.vbias i :=
  ⟨rfl, fun _ _ => rfl⟩

/-- Claim C5: sample_h_given_v returns the triple
(pre-activation, probability, sample) where the first two components come
from propup and the sample is an elementwise Bernoulli draw, driven by one
uniform draw per entry, with success probability the sigmoid of the
pre-activation; every component of the sample lies in the set of 0 and 1. -/
theorem sample_h_given_v_spec (m : CRBM nv nh nd) (v : Fin nb → Fin nv → ℝ)
    (vh : Fin nb → Fin nd → ℝ) (rand : Fin nb → Fin nh → ℝ) :
    (sample_h_given_v m v vh rand).1 = (propup m v vh).1
      ∧ (sample_h_given_v m v vh rand).2.1 = (propup m v vh).2
      ∧ (∀ b j, (sample_h_given_v m v vh rand).2.2 b j
          = if rand b j < sigmoid ((propup m v vh).1 b j) then 1 else 0)
      ∧ ∀ b j, (sample_h_given_v m v vh rand).2.2 b j = 0
          ∨ (sample_h_given_v m v vh rand).2.2 b j = 1 := by
  refine ⟨rfl, rfl, fun b j => rfl, fun b j => ?_⟩
  have e : (sample_h_given_v m v vh rand).2.2 b j
      = if rand b j < sigmoid ((propup m v vh).1 b j) then (1 : ℝ) else 0 := rfl
  rw [e]
  exact (ite_eq_or_eq _ _ _).elim Or.inr Or.inl

/-- Claim C6: propup returns both the raw pre-activation
a = v.W + vh.B + hbias and the probability sigmoid a, as two separately
exposed values, in that order. -/
theorem propup_spec (m : CRBM nv nh nd) (v : Fin nb → Fin nv → ℝ)
    (vh : Fin nb → Fin nd → ℝ) :
    (∀ b j, (propup m v vh).1 b j
        = (∑ i, v b i * m.W i j) + (∑ l, vh b l * m.B l j) + m.hbias j)
      ∧ ∀ b j, (propup m v vh).2 b j = sigmoid ((propup m v vh).1 b j) :=
  ⟨fun _ _ => rfl, fun _ _ => rfl⟩

/-- Claim C8: with W = 0, A = 0 and B = 0 the free energy reduces to
0.5 * sum over visible dims of (v - vbias) squared minus a sum over hidden
dims involving only hbias; with hbias = 0 as well it is exactly
0.5 * sum of (v - vbias) squared - n_hidden * log 2. -/
theorem free_energy_zero_weights (hb : Fin nh → ℝ) (vb : Fin nv → ℝ)
    (v : Fin nb → Fin nv → ℝ) (vh : Fin nb → Fin nd → ℝ) (b : Fin nb) :
    free_energy ⟨fun _ _ => 0, fun _ _ => 0, fun _ _ => 0, hb, vb⟩ v vh b
        = (∑ i, 0.5 * (v b i - vb i) ^ 2) - ∑ j, Real.log (1 + Real.exp (hb j))
      ∧ free_energy ⟨fun _ _ => 0, fun _ _ => 0, fun _ _ => 0, fun _ : Fin nh => 0, vb⟩ v vh b
        = (∑ i, 0.5 * (v b i - vb i) ^ 2) - (nh : ℝ) * Real.log 2 := by
  constructor
  · simp [free_energy, fe_row, wx, ax, tdot]
  · simp [free_energy, fe_row, wx, ax, tdot, Real.exp_zero, one_add_one_eq_two,
      Finset.sum_const, Finset.card_univ, nsmul_eq_mul]

/-- Claim C9 (settled as a code bug): get_cost_updates performs no
validation of k. With k = 0 the Gibbs chain is empty and the chain-end
subtensor nv_samples[-1] has no value, so the embedded call yields none:
there is no invalid-argument rejection at call time in crbm.py, and no
silent positive-phase fallback either. -/
theorem get_cost_updates_zero_k (m : CRBM nv nh nd) (lr : ℝ)
    (x : Fin nb → Fin nv → ℝ) (xh : Fin nb → Fin nd → ℝ)
    (rand0 : Fin nb → Fin nh → ℝ) (rands : ℕ → Fin nb → Fin nh → ℝ) :
    get_cost_updates m lr 0 x xh rand0 rands = none :=
  rfl

/-- Claim C10: none of the model operations mutates the five parameters;
each call leaves the parameter state equal to what it was before the call,
and get_cost_updates only hands the new parameter values back in its
updates dictionary. -/
theorem params_unchanged (m : CRBM nv nh nd) (v : Fin nb → Fin nv → ℝ)
    (vh : Fin nb → Fin nd → ℝ) (h0 : Fin nb → Fin nh → ℝ)
    (rand rand0 : Fin nb → Fin nh → ℝ) (rands : ℕ → Fin nb → Fin nh → ℝ)
    (lr : ℝ) (k : ℕ) :
    (free_energy_call m v vh).2 = m
      ∧ (propup_call m v vh).2 = m
      ∧ (propdown_call m h0 vh).2 = m
      ∧ (sample_h_given_v_call m v vh rand).2 = m
      ∧ (sample_v_given_h_call m h0 vh).2 = m
      ∧ (gibbs_hvh_call m h0 vh rand).2 = m
      ∧ (gibbs_vhv_call m v vh rand).2 = m
      ∧ (get_cost_updates_call m lr k v vh rand0 rands).2 = m :=
  ⟨rfl, rfl, rfl, rfl, rfl, rfl, rfl, rfl⟩

/-- The logistic function as a ratio of exponentials. -/
theorem sigmoid_eq_exp_ratio (x : ℝ) : sigmoid x = Real.exp x / (1 + Real.exp x) := by
  unfold sigmoid
  rw [Real.exp_neg]
  have hx : Real.exp x ≠ 0 := (Real.exp_pos x).ne'
  have h1 : 1 + (Real.exp x)⁻¹ ≠ 0 := by positivity
  have h2 : 1 + Real.exp x ≠ 0 := by positivity
  field_simp
  ring

/-- The derivative of the softplus function is the logistic function. -/
theorem hasDerivAt_softplus (z : ℝ) :
    HasDerivAt (fun y => Real.log (1 + Real.exp y)) (sigmoid z) z := by
  have h1 : HasDerivAt (fun y : ℝ => 1 + Real.exp y) (Real.exp z) z :=
    (Real.hasDerivAt_exp z).const_add 1
  have h2 := h1.log (by positivity)
  rw [sigmoid_eq_exp_ratio]
  exact h2

/-- Derivative of a sum of softplus terms with differentiable arguments. -/
theorem hasDerivAt_sum_softplus {n : ℕ} (u : ℝ → Fin n → ℝ) (d : Fin n → ℝ) (t0 : ℝ)
    (hu : ∀ j, HasDerivAt (fun t => u t j) (d j) t0) :
    HasDerivAt (fun t => ∑ j, Real.log (1 + Real.exp (u t j)))
      (∑ j, sigmoid (u t0 j) * d j) t0 := by
  refine HasDerivAt.sum fun j _ => ?_
  exact (hasDerivAt_softplus (u t0 j)).comp t0 (hu j)

/-- Derivative of a sum of scaled squared differences with differentiable
subtrahends. -/
theorem hasDerivAt_sum_sq {n : ℕ} (v : Fin n → ℝ) (u : ℝ → Fin n → ℝ) (d : Fin n → ℝ)
    (t0 : ℝ) (hu : ∀ i, HasDerivAt (fun t => u t i) (d i) t0) :
    HasDerivAt (fun t => ∑ i, 0.5 * (v i - u t i) ^ 2)
      (∑ i, -((v i - u t0 i) * d i)) t0 := by
  refine HasDerivAt.sum fun i _ => ?_
  have h1 := (((hu i).const_sub (v i)).pow 2).const_mul (0.5 : ℝ)
  convert h1 using 1
  push_cast
  ring

/-- Derivative of a weighted sum in its single perturbed matrix entry. -/
theorem hasDerivAt_entry_sum {n p : ℕ} (v : Fin n → ℝ) (M : Fin n → Fin p → ℝ)
    (i0 : Fin n) (j0 j : Fin p) (t0 : ℝ) :
    HasDerivAt (fun t => ∑ i, v i * (if i = i0 ∧ j = j0 then t else M i j))
      (if j = j0 then v i0 else 0) t0 := by
  by_cases hj : j = j0
  · have hfun : (fun t : ℝ => ∑ i, v i * (if i = i0 ∧ j = j0 then t else M i j))
        = fun t : ℝ => ∑ i, v i * (if i = i0 then t else M i j) := by
      funext t
      refine Finset.sum_congr rfl fun i _ => ?_
      congr 1
      by_cases hi : i = i0
      · rw [if_pos ⟨hi, hj⟩, if_pos hi]
      · rw [if_neg (fun hc => hi hc.1), if_neg hi]
    rw [hfun, if_pos hj]
    have h : ∀ i ∈ Finset.univ, HasDerivAt
        (fun t : ℝ => v i * (if i = i0 then t else M i j))
        (if i = i0 then v i else 0) t0 := by
      intro i _
      by_cases hi : i = i0
      · have e : (fun t : ℝ => v i * (if i = i0 then t else M i j))
            = fun t => v i * t := by
          funext t; rw [if_pos hi]
        rw [e, if_pos hi]
        simpa using (hasDerivAt_id t0).const_mul (v i)
      · have e : (fun t : ℝ => v i * (if i = i0 then t else M i j))
            = fun _ => v i * M i j := by
          funext t; rw [if_neg hi]
        rw [e, if_neg hi]
        exact hasDerivAt_const t0 _
    have hs := HasDerivAt.sum h
    have hsum : (∑ i, if i = i0 then v i else 0) = v i0 := by
      rw [Finset.sum_ite_eq' Finset.univ i0 v]
      simp
    rwa [hsum] at hs
  · have hfun : (fun t : ℝ => ∑ i, v i * (if i = i0 ∧ j = j0 then t else M i j))
        = fun _ : ℝ => ∑ i, v i * M i j := by
      funext t
      exact Finset.sum_congr rfl fun i _ => by rw [if_neg (fun hc => hj hc.2)]
    rw [hfun, if_neg hj]
    exact hasDerivAt_const t0 _

/-- Derivative of a single perturbed vector entry. -/
theorem hasDerivAt_entry_ite {n : ℕ} (c : Fin n → ℝ) (j0 j : Fin n) (t0 : ℝ) :
    HasDerivAt (fun t : ℝ => if j = j0 then t else c j) (if j = j0 then 1 else 0) t0 := by
  by_cases hj : j = j0
  · have e : (fun t : ℝ => if j = j0 then t else c j) = fun t => t := by
      funext t; rw [if_pos hj]
    rw [e, if_pos hj]
    exact hasDerivAt_id t0
  · have e : (fun t : ℝ => if j = j0 then t else c j) = fun _ => c j := by
      funext t; rw [if_neg hj]
    rw [e, if_neg hj]
    exact hasDerivAt_const t0 _

/-- A sum of products against an indicator collapses to one term. -/
theorem sum_mul_ite_right {n : ℕ} (s : Fin n → ℝ) (j0 : Fin n) (a : ℝ) :
    (∑ j, s j * (if j = j0 then a else 0)) = s j0 * a := by
  have h : ∀ j ∈ Finset.univ, s j * (if j = j0 then a else 0)
      = if j = j0 then s j * a else 0 := by
    intro j _
    by_cases hj : j = j0
    · rw [if_pos hj, if_pos hj]
    · rw [if_neg hj, if_neg hj, mul_zero]
  rw [Finset.sum_congr rfl h, Finset.sum_ite_eq' Finset.univ j0 (fun j => s j * a)]
  simp

/-- A sum of negated products against an indicator collapses to one term. -/
theorem sum_neg_mul_ite {n : ℕ} (w : Fin n → ℝ) (i0 : Fin n) (a : ℝ) :
    (∑ i, -(w i * (if i = i0 then a else 0))) = -(w i0 * a) := by
  have h : ∀ i ∈ Finset.univ, -(w i * (if i = i0 then a else 0))
      = if i = i0 then -(w i * a) else 0 := by
    intro i _
    by_cases hi : i = i0
    · rw [if_pos hi, if_pos hi]
    · rw [if_neg hi, if_neg hi, mul_zero, neg_zero]
  rw [Finset.sum_congr rfl h,
    Finset.sum_ite_eq' Finset.univ i0 (fun i => -(w i * a))]
  simp

/-- Replacing the entry W i0 j0 by its current value is the identity. -/
theorem updW_self (m : CRBM nv nh nd) (i0 : Fin nv) (j0 : Fin nh) :
    updW m i0 j0 (m.W i0 j0) = m := by
  obtain ⟨W, A, B, hb, vb⟩ := m
  simp only [updW]
  congr 1
  funext i j
  by_cases h : i = i0 ∧ j = j0
  · obtain ⟨h1, h2⟩ := h
    rw [if_pos ⟨h1, h2⟩, h1, h2]
  · rw [if_neg h]

/-- Replacing the entry A l0 i0 by its current value is the identity. -/
theorem updA_self (m : CRBM nv nh nd) (l0 : Fin nd) (i0 : Fin nv) :
    updA m l0 i0 (m.A l0 i0) = m := by
  obtain ⟨W, A, B, hb, vb⟩ := m
  simp only [updA]
  congr 1
  funext l i
  by_cases h : l = l0 ∧ i = i0
  · obtain ⟨h1, h2⟩ := h
    rw [if_pos ⟨h1, h2⟩, h1, h2]
  · rw [if_neg h]

/-- Replacing the entry B l0 j0 by its current value is the identity. -/
theorem updB_self (m : CRBM nv nh nd) (l0 : Fin nd) (j0 : Fin nh) :
    updB m l0 j0 (m.B l0 j0) = m := by
  obtain ⟨W, A, B, hb, vb⟩ := m
  simp only [updB]
  congr 1
  funext l j
  by_cases h : l = l0 ∧ j = j0
  · obtain ⟨h1, h2⟩ := h
    rw [if_pos ⟨h1, h2⟩, h1, h2]
  · rw [if_neg h]

/-- Replacing the entry hbias j0 by its current value is the identity. -/
theorem updH_self (m : CRBM nv nh nd) (j0 : Fin nh) :
    updH m j0 (m.hbias j0) = m := by
  obtain ⟨W, A, B, hb, vb⟩ := m
  simp only [updH]
  congr 1
  funext j
  by_cases h : j = j0
  · rw [if_pos h, h]
  · rw [if_neg h]

/-- Replacing the entry vbias i0 by its current value is the identity. -/
theorem updV_self (m : CRBM nv nh nd) (i0 : Fin nv) :
    updV m i0 (m.vbias i0) = m := by
  obtain ⟨W, A, B, hb, vb⟩ := m
  simp only [updV]
  congr 1
  funext i
  by_cases h : i = i0
  · rw [if_pos h, h]
  · rw [if_neg h]

/-- Entrywise derivative of the row free energy in W. -/
theorem hasDerivAt_fe_row_updW (m : CRBM nv nh nd) (v : Fin nv → ℝ) (vh : Fin nd → ℝ)
    (i0 : Fin nv) (j0 : Fin nh) (t0 : ℝ) :
    HasDerivAt (fun t => fe_row (updW m i0 j0 t) v vh)
      (gW_row (updW m i0 j0 t0) v vh i0 j0) t0 := by
  have hfun : (fun t => fe_row (updW m i0 j0 t) v vh)
      = fun t => (∑ i, 0.5 * (v i - ax m vh i) ^ 2)
          - ∑ j, Real.log (1 + Real.exp
              ((∑ i, v i * (if i = i0 ∧ j = j0 then t else m.W i j))
                + tdot vh m.B j + m.hbias j)) := rfl
  have hu : ∀ j, HasDerivAt
      (fun t => (∑ i, v i * (if i = i0 ∧ j = j0 then t else m.W i j))
        + tdot vh m.B j + m.hbias j)
      (if j = j0 then v i0 else 0) t0 := fun j =>
    ((hasDerivAt_entry_sum v m.W i0 j0 j t0).add_const _).add_const _
  have hhid := hasDerivAt_sum_softplus
      (fun t j => (∑ i, v i * (if i = i0 ∧ j = j0 then t else m.W i j))
        + tdot vh m.B j + m.hbias j)
      (fun j => if j = j0 then v i0 else 0) t0 hu
  have hvis : HasDerivAt (fun _ : ℝ => ∑ i, 0.5 * (v i - ax m vh i) ^ 2) 0 t0 :=
    hasDerivAt_const t0 _
  have h := hvis.sub hhid
  rw [hfun]
  convert h using 1
  rw [zero_sub, sum_mul_ite_right]
  rfl

/-- Entrywise derivative of the row free energy in B. -/
theorem hasDerivAt_fe_row_updB (m : CRBM nv nh nd) (v : Fin nv → ℝ) (vh : Fin nd → ℝ)
    (l0 : Fin nd) (j0 : Fin nh) (t0 : ℝ) :
    HasDerivAt (fun t => fe_row (updB m l0 j0 t) v vh)
      (gB_row (updB m l0 j0 t0) v vh l0 j0) t0 := by
  have hfun : (fun t => fe_row (updB m l0 j0 t) v vh)
      = fun t => (∑ i, 0.5 * (v i - ax m vh i) ^ 2)
          - ∑ j, Real.log (1 + Real.exp
              (tdot v m.W j + (∑ l, vh l * (if l = l0 ∧ j = j0 then t else m.B l j))
                + m.hbias j)) := rfl
  have hu : ∀ j, HasDerivAt
      (fun t => tdot v m.W j + (∑ l, vh l * (if l = l0 ∧ j = j0 then t else m.B l j))
        + m.hbias j)
      (if j = j0 then vh l0 else 0) t0 := fun j =>
    (((hasDerivAt_entry_sum vh m.B l0 j0 j t0).const_add _).add_const _)
  have hhid := hasDerivAt_sum_softplus
      (fun t j => tdot v m.W j + (∑ l, vh l * (if l = l0 ∧ j = j0 then t else m.B l j))
        + m.hbias j)
      (fun j => if j = j0 then vh l0 else 0) t0 hu
  have hvis : HasDerivAt (fun _ : ℝ => ∑ i, 0.5 * (v i - ax m vh i) ^ 2) 0 t0 :=
    hasDerivAt_const t0 _
  have h := hvis.sub hhid
  rw [hfun]
  convert h using 1
  rw [zero_sub, sum_mul_ite_right]
  rfl

/-- Entrywise derivative of the row free energy in hbias. -/
theorem hasDerivAt_fe_row_updH (m : CRBM nv nh nd) (v : Fin nv → ℝ) (vh : Fin nd → ℝ)
    (j0 : Fin nh) (t0 : ℝ) :
    HasDerivAt (fun t => fe_row (updH m j0 t) v vh)
      (gH_row (updH m j0 t0) v vh j0) t0 := by
  have hfun : (fun t => fe_row (updH m j0 t) v vh)
      = fun t => (∑ i, 0.5 * (v i - ax m vh i) ^ 2)
          - ∑ j, Real.log (1 + Real.exp
              (tdot v m.W j + tdot vh m.B j + (if j = j0 then t else m.hbias j))) := rfl
  have hu : ∀ j, HasDerivAt
      (fun t => tdot v m.W j + tdot vh m.B j + (if j = j0 then t else m.hbias j))
      (if j = j0 then 1 else 0) t0 := fun j =>
    (hasDerivAt_entry_ite m.hbias j0 j t0).const_add _
  have hhid := hasDerivAt_sum_softplus
      (fun t j => tdot v m.W j + tdot vh m.B j + (if j = j0 then t else m.hbias j))
      (fun j => if j = j0 then 1 else 0) t0 hu
  have hvis : HasDerivAt (fun _ : ℝ => ∑ i, 0.5 * (v i - ax m vh i) ^ 2) 0 t0 :=
    hasDerivAt_const t0 _
  have h := hvis.sub hhid
  rw [hfun]
  convert h using 1
  rw [zero_sub, sum_mul_ite_right, mul_one]
  rfl

/-- Entrywise derivative of the row free energy in A. -/
theorem hasDerivAt_fe_row_updA (m : CRBM nv nh nd) (v : Fin nv → ℝ) (vh : Fin nd → ℝ)
    (l0 : Fin nd) (i0 : Fin nv) (t0 : ℝ) :
    HasDerivAt (fun t => fe_row (updA m l0 i0 t) v vh)
      (gA_row (updA m l0 i0 t0) v vh l0 i0) t0 := by
  have hfun : (fun t => fe_row (updA m l0 i0 t) v vh)
      = fun t => (∑ i, 0.5 * (v i
            - ((∑ l, vh l * (if l = l0 ∧ i = i0 then t else m.A l i)) + m.vbias i)) ^ 2)
          - ∑ j, Real.log (1 + Real.exp (wx m v vh j)) := rfl
  have hu : ∀ i, HasDerivAt
      (fun t => (∑ l, vh l * (if l = l0 ∧ i = i0 then t else m.A l i)) + m.vbias i)
      (if i = i0 then vh l0 else 0) t0 := fun i =>
    (hasDerivAt_entry_sum vh m.A l0 i0 i t0).add_const _
  have hvis := hasDerivAt_sum_sq v
      (fun t i => (∑ l, vh l * (if l = l0 ∧ i = i0 then t else m.A l i)) + m.vbias i)
      (fun i => if i = i0 then vh l0 else 0) t0 hu
  have hhid : HasDerivAt
      (fun _ : ℝ => ∑ j, Real.log (1 + Real.exp (wx m v vh j))) 0 t0 :=
    hasDerivAt_const t0 _
  have h := hvis.sub hhid
  rw [hfun]
  convert h using 1
  rw [sub_zero, sum_neg_mul_ite]
  rfl

/-- Entrywise derivative of the row free energy in vbias. -/
theorem hasDerivAt_fe_row_updV (m : CRBM nv nh nd) (v : Fin nv → ℝ) (vh : Fin nd → ℝ)
    (i0 : Fin nv) (t0 : ℝ) :
    HasDerivAt (fun t => fe_row (updV m i0 t) v vh)
      (gV_row (updV m i0 t0) v vh i0) t0 := by
  have hfun : (fun t => fe_row (updV m i0 t) v vh)
      = fun t => (∑ i, 0.5 * (v i
            - (tdot vh m.A i + (if i = i0 then t else m.vbias i))) ^ 2)
          - ∑ j, Real.log (1 + Real.exp (wx m v vh j)) := rfl
  have hu : ∀ i, HasDerivAt
      (fun t => tdot vh m.A i + (if i = i0 then t else m.vbias i))
      (if i = i0 then 1 else 0) t0 := fun i =>
    (hasDerivAt_entry_ite m.vbias i0 i t0).const_add _
  have hvis := hasDerivAt_sum_sq v
      (fun t i => tdot vh m.A i + (if i = i0 then t else m.vbias i))
      (fun i => if i = i0 then 1 else 0) t0 hu
  have hhid : HasDerivAt
      (fun _ : ℝ => ∑ j, Real.log (1 + Real.exp (wx m v vh j))) 0 t0 :=
    hasDerivAt_const t0 _
  have h := hvis.sub hhid
  rw [hfun]
  convert h using 1
  rw [sub_zero, sum_neg_mul_ite, mul_one]
  rfl

/-- The closed form gradW is the calculus gradient of the CD cost in the
entry W i0 j0, with the chain end held constant. -/
theorem hasDerivAt_cd_cost_W (m : CRBM nv nh nd) (x : Fin nb → Fin nv → ℝ)
    (xh : Fin nb → Fin nd → ℝ) (ce : Fin nb → Fin nv → ℝ)
    (i0 : Fin nv) (j0 : Fin nh) :
    HasDerivAt (fun t => cd_cost (updW m i0 j0 t) x xh ce)
      (gradW m x xh ce i0 j0) (m.W i0 j0) := by
  have hx : ∀ b ∈ Finset.univ, HasDerivAt
      (fun t => fe_row (updW m i0 j0 t) (x b) (xh b))
      (gW_row m (x b) (xh b) i0 j0) (m.W i0 j0) := by
    intro b _
    have h := hasDerivAt_fe_row_updW m (x b) (xh b) i0 j0 (m.W i0 j0)
    rwa [updW_self] at h
  have hc : ∀ b ∈ Finset.univ, HasDerivAt
      (fun t => fe_row (updW m i0 j0 t) (ce b) (xh b))
      (gW_row m (ce b) (xh b) i0 j0) (m.W i0 j0) := by
    intro b _
    have h := hasDerivAt_fe_row_updW m (ce b) (xh b) i0 j0 (m.W i0 j0)
    rwa [updW_self] at h
  exact ((HasDerivAt.sum hx).div_const (nb : ℝ)).sub
    ((HasDerivAt.sum hc).div_const (nb : ℝ))

/-- The closed form gradA is the calculus gradient of the CD cost in the
entry A l0 i0, with the chain end held constant. -/
theorem hasDerivAt_cd_cost_A (m : CRBM nv nh nd) (x : Fin nb → Fin nv → ℝ)
    (xh : Fin nb → Fin nd → ℝ) (ce : Fin nb → Fin nv → ℝ)
    (l0 : Fin nd) (i0 : Fin nv) :
    HasDerivAt (fun t => cd_cost (updA m l0 i0 t) x xh ce)
      (gradA m x xh ce l0 i0) (m.A l0 i0) := by
  have hx : ∀ b ∈ Finset.univ, HasDerivAt
      (fun t => fe_row (updA m l0 i0 t) (x b) (xh b))
      (gA_row m (x b) (xh b) l0 i0) (m.A l0 i0) := by
    intro b _
    have h := hasDerivAt_fe_row_updA m (x b) (xh b) l0 i0 (m.A l0 i0)
    rwa [updA_self] at h
  have hc : ∀ b ∈ Finset.univ, HasDerivAt
      (fun t => fe_row (updA m l0 i0 t) (ce b) (xh b))
      (gA_row m (ce b) (xh b) l0 i0) (m.A l0 i0) := by
    intro b _
    have h := hasDerivAt_fe_row_updA m (ce b) (xh b) l0 i0 (m.A l0 i0)
    rwa [updA_self] at h
  exact ((HasDerivAt.sum hx).div_const (nb : ℝ)).sub
    ((HasDerivAt.sum hc).div_const (nb : ℝ))

/-- The closed form gradB is the calculus gradient of the CD cost in the
entry B l0 j0, with the chain end held constant. -/
theorem hasDerivAt_cd_cost_B (m : CRBM nv nh nd) (x : Fin nb → Fin nv → ℝ)
    (xh : Fin nb → Fin nd → ℝ) (ce : Fin nb → Fin nv → ℝ)
    (l0 : Fin nd) (j0 : Fin nh) :
    HasDerivAt (fun t => cd_cost (updB m l0 j0 t) x xh ce)
      (gradB m x xh ce l0 j0) (m.B l0 j0) := by
  have hx : ∀ b ∈ Finset.univ, HasDerivAt
      (fun t => fe_row (updB m l0 j0 t) (x b) (xh b))
      (gB_row m (x b) (xh b) l0 j0) (m.B l0 j0) := by
    intro b _
    have h := hasDerivAt_fe_row_updB m (x b) (xh b) l0 j0 (m.B l0 j0)
    rwa [updB_self] at h
  have hc : ∀ b ∈ Finset.univ, HasDerivAt
      (fun t => fe_row (updB m l0 j0 t) (ce b) (xh b))
      (gB_row m (ce b) (xh b) l0 j0) (m.B l0 j0) := by
    intro b _
    have h := hasDerivAt_fe_row_updB m (ce b) (xh b) l0 j0 (m.B l0 j0)
    rwa [updB_self] at h
  exact ((HasDerivAt.sum hx).div_const (nb : ℝ)).sub
    ((HasDerivAt.sum hc).div_const (nb : ℝ))

/-- The closed form gradH is the calculus gradient of the CD cost in the
entry hbias j0, with the chain end held constant. -/
theorem hasDerivAt_cd_cost_H (m : CRBM nv nh nd) (x : Fin nb → Fin nv → ℝ)
    (xh : Fin nb → Fin nd → ℝ) (ce : Fin nb → Fin nv → ℝ) (j0 : Fin nh) :
    HasDerivAt (fun t => cd_cost (updH m j0 t) x xh ce)
      (gradH m x xh ce j0) (m.hbias j0) := by
  have hx : ∀ b ∈ Finset.univ, HasDerivAt
      (fun t => fe_row (updH m j0 t) (x b) (xh b))
      (gH_row m (x b) (xh b) j0) (m.hbias j0) := by
    intro b _
    have h := hasDerivAt_fe_row_updH m (x b) (xh b) j0 (m.hbias j0)
    rwa [updH_self] at h
  have hc : ∀ b ∈ Finset.univ, HasDerivAt
      (fun t => fe_row (updH m j0 t) (ce b) (xh b))
      (gH_row m (ce b) (xh b) j0) (m.hbias j0) := by
    intro b _
    have h := hasDerivAt_fe_row_updH m (ce b) (xh b) j0 (m.hbias j0)
    rwa [updH_self] at h
  exact ((HasDerivAt.sum hx).div_const (nb : ℝ)).sub
    ((HasDerivAt.sum hc).div_const (nb : ℝ))

/-- The closed form gradV is the calculus gradient of the CD cost in the
entry vbias i0, with the chain end held constant. -/
theorem hasDerivAt_cd_cost_V (m : CRBM nv nh nd) (x : Fin nb → Fin nv → ℝ)
    (xh : Fin nb → Fin nd → ℝ) (ce : Fin nb → Fin nv → ℝ) (i0 : Fin nv) :
    HasDerivAt (fun t => cd_cost (updV m i0 t) x xh ce)
      (gradV m x xh ce i0) (m.vbias i0) := by
  have hx : ∀ b ∈ Finset.univ, HasDerivAt
      (fun t => fe_row (updV m i0 t) (x b) (xh b))
      (gV_row m (x b) (xh b) i0) (m.vbias i0) := by
    intro b _
    have h := hasDerivAt_fe_row_updV m (x b) (xh b) i0 (m.vbias i0)
    rwa [updV_self] at h
  have hc : ∀ b ∈ Finset.univ, HasDerivAt
      (fun t => fe_row (updV m i0 t) (ce b) (xh b))
      (gV_row m (ce b) (xh b) i0) (m.vbias i0) := by
    intro b _
    have h := hasDerivAt_fe_row_updV m (ce b) (xh b) i0 (m.vbias i0)
    rwa [updV_self] at h
  exact ((HasDerivAt.sum hx).div_const (nb : ℝ)).sub
    ((HasDerivAt.sum hc).div_const (nb : ℝ))

/-- Claim C1: for every learning rate lr and every k greater or equal to 1
(written k + 1 below), the update dictionary returned by get_cost_updates
maps each of W, B, hbias and vbias to the parameter minus lr times the
gradient of the cost
tmean (free_energy x xh) - tmean (free_energy chain_end xh),
where the chain-end sample is held constant (the perturbed-model cost
cd_cost keeps the tensor ce fixed, so no gradient flows through the Gibbs
chain), and maps A alone to A minus 0.01 times lr times its gradient.
The gradient facts are stated as entrywise derivatives of the cost in the
perturbed parameter entry. -/
theorem cd_update_rule (m : CRBM nv nh nd) (x : Fin nb → Fin nv → ℝ)
    (xh : Fin nb → Fin nd → ℝ) (rand0 : Fin nb → Fin nh → ℝ)
    (rands : ℕ → Fin nb → Fin nh → ℝ) (lr : ℝ) (k : ℕ) :
    (get_cost_updates m lr (k + 1) x xh rand0 rands).map Prod.snd
        = some (cd_updates m x xh (chain_end_sample m x xh rand0 rands k) lr)
      ∧ (∀ i j, (cd_updates m x xh (chain_end_sample m x xh rand0 rands k) lr).W i j
            = m.W i j - lr * gradW m x xh (chain_end_sample m x xh rand0 rands k) i j
          ∧ HasDerivAt
              (fun t => cd_cost (updW m i j t) x xh (chain_end_sample m x xh rand0 rands k))
              (gradW m x xh (chain_end_sample m x xh rand0 rands k) i j) (m.W i j))
      ∧ (∀ l i, (cd_updates m x xh (chain_end_sample m x xh rand0 rands k) lr).A l i
            = m.A l i - 0.01 * lr * gradA m x xh (chain_end_sample m x xh rand0 rands k) l i
          ∧ HasDerivAt
              (fun t => cd_cost (updA m l i t) x xh (chain_end_sample m x xh rand0 rands k))
              (gradA m x xh (chain_end_sample m x xh rand0 rands k) l i) (m.A l i))
      ∧ (∀ l j, (cd_updates m x xh (chain_end_sample m x xh rand0 rands k) lr).B l j
            = m.B l j - lr * gradB m x xh (chain_end_sample m x xh rand0 rands k) l j
          ∧ HasDerivAt
              (fun t => cd_cost (updB m l j t) x xh (chain_end_sample m x xh rand0 rands k))
              (gradB m x xh (chain_end_sample m x xh rand0 rands k) l j) (m.B l j))
      ∧ (∀ j, (cd_updates m x xh (chain_end_sample m x xh rand0 rands k) lr).hbias j
            = m.hbias j - lr * gradH m x xh (chain_end_sample m x xh rand0 rands k) j
          ∧ HasDerivAt
              (fun t => cd_cost (updH m j t) x xh (chain_end_sample m x xh rand0 rands k))
              (gradH m x xh (chain_end_sample m x xh rand0 rands k) j) (m.hbias j))
      ∧ ∀ i, (cd_updates m x xh (chain_end_sample m x xh rand0 rands k) lr).vbias i
            = m.vbias i - lr * gradV m x xh (chain_end_sample m x xh rand0 rands k) i
          ∧ HasDerivAt
              (fun t => cd_cost (updV m i t) x xh (chain_end_sample m x xh rand0 rands k))
              (gradV m x xh (chain_end_sample m x xh rand0 rands k) i) (m.vbias i) := by
  refine ⟨?_, fun i j => ⟨?_, hasDerivAt_cd_cost_W m x xh _ i j⟩,
    fun l i => ⟨?_, hasDerivAt_cd_cost_A m x xh _ l i⟩,
    fun l j => ⟨?_, hasDerivAt_cd_cost_B m x xh _ l j⟩,
    fun j => ⟨?_, hasDerivAt_cd_cost_H m x xh _ j⟩,
    fun i => ⟨?_, hasDerivAt_cd_cost_V m x xh _ i⟩⟩
  · rw [get_cost_updates_succ]
    rfl
  · show m.W i j - gradW m x xh (chain_end_sample m x xh rand0 rands k) i j * lr = _
    ring
  · show m.A l i - gradA m x xh (chain_end_sample m x xh rand0 rands k) l i * 0.01 * lr = _
    ring
  · show m.B l j - gradB m x xh (chain_end_sample m x xh rand0 rands k) l j * lr = _
    ring
  · show m.hbias j - gradH m x xh (chain_end_sample m x xh rand0 rands k) j * lr = _
    ring
  · show m.vbias i - gradV m x xh (chain_end_sample m x xh rand0 rands k) i * lr = _
    ring

end Crbm
